import Mathlib

/-!
Verification of the core RAG pipeline of the eora-ai-chatbot repository.

The development shallowly embeds the decision logic of the pipeline:

- app/llm/rag_manager.py, RAGManager.process_query: relevance filtering
  (threshold 0.35 with a top-2 fallback) and stage sequencing;
- app/vector/embedding_service.py, EmbeddingService.generate_embedding:
  empty-input rejection and 8000-character truncation;
- app/vector/pinecone_client.py, PineconeClient.search_similar: the
  exception-swallowing search wrapper;
- app/llm/llm_service.py, LLMService.generate_response, _create_prompt and
  _format_context: tier-gated context rendering and prompt construction;
- app/api/routes/chat.py, extract_sources_from_response: markdown link
  extraction.

Python floats are modelled as rationals; external network calls (embedding
provider, vector index query, chat completion) are parameters of the
embedded functions, an Option or Except value standing for the outcome of
the one call the code makes.  Strings are handled at the character-list
level where substring reasoning is needed; numeric rendering inside the
formatted context abstracts the exact rounding mode of Python float
formatting, which no claim depends on.
-/

/-! ## Data model: candidates returned by the vector search

A search hit is a Python dict read with dict.get and per-field defaults, so
every field that the code reads through .get is an Option here.  metadata
holds the flat string fields the ingestion pipeline wrote. -/

structure SearchMetadata where
  title : Option String
  description : Option String
  client : Option String
  technologies : Option String
  url : Option String
  deriving Repr, DecidableEq

structure Candidate where
  id : String
  score : Option ℚ
  metadata : Option SearchMetadata
  deriving Repr, DecidableEq

/-- doc.get with score default 0, as rag_manager.py reads scores. -/
def Candidate.getScore (c : Candidate) : ℚ := c.score.getD 0

/-- case.get applied to a metadata field, two .get defaults chained. -/
def mdField (c : Candidate) (f : SearchMetadata → Option String) (dflt : String) : String :=
  ((c.metadata.map f).getD none).getD dflt

def titleOf (c : Candidate) : String := mdField c SearchMetadata.title "Без названия"

def descriptionOf (c : Candidate) : String := mdField c SearchMetadata.description ""

def clientOf (c : Candidate) : String := mdField c SearchMetadata.client "Клиент не указан"

def technologiesOf (c : Candidate) : String := mdField c SearchMetadata.technologies ""

def urlOf (c : Candidate) : String := mdField c SearchMetadata.url ""

/-! ## Relevance filter (rag_manager.py lines 84-91) -/

/-- The relevance threshold 0.35 of RAGManager.process_query. -/
def relevanceThreshold : ℚ := 0.35

/-- Descending score order used by sorted(key=score, reverse=True). -/
def scoreGE (a b : Candidate) : Prop := b.getScore ≤ a.getScore

instance : DecidableRel scoreGE := fun a b =>
  inferInstanceAs (Decidable (b.getScore ≤ a.getScore))

instance : IsTotal Candidate scoreGE := ⟨fun a b => le_total b.getScore a.getScore⟩

instance : IsTrans Candidate scoreGE := ⟨fun _ _ _ h1 h2 => le_trans h2 h1⟩

/-- sorted(similar_docs, key=score, reverse=True): a stable descending sort,
matching the stable sort Python uses. -/
def sortByScoreDesc (docs : List Candidate) : List Candidate :=
  docs.insertionSort scoreGE

/-- The threshold test of the list comprehension on line 84. -/
def keepDoc (d : Candidate) : Bool := decide (relevanceThreshold < d.getScore)

/-- RAGManager.process_query lines 84-91: keep docs with score > 0.35; if
none survive, fall back to the top 2 of the score-descending sort. -/
def filterDocs (docs : List Candidate) : List Candidate :=
  let filtered := docs.filter keepDoc
  if filtered.length = 0 then (sortByScoreDesc docs).take 2 else filtered

/-- Score-descending order of a candidate list. -/
def ScoreSorted (l : List Candidate) : Prop := l.Pairwise scoreGE

/-! ## Embedder (embedding_service.py, EmbeddingService.generate_embedding)

The one provider call the method makes (openai.embeddings.create) is a
parameter; a None result stands for the except branch that swallows any
provider failure.  The outcome records, besides the returned value, the
text actually submitted to the provider (none when no call was made) and
whether the empty-input warning branch was taken. -/

/-- Whitespace in the sense of the Python str.strip default. -/
def isPySpace (c : Char) : Bool :=
  c = ' ' || c = '\t' || c = '\n' || c = '\r' || c = '\x0b' || c = '\x0c'

/-- Python text.strip(): drop leading and trailing whitespace. -/
def pyStrip (s : String) : String :=
  ⟨((s.data.dropWhile isPySpace).reverse.dropWhile isPySpace).reverse⟩

structure EmbedOutcome where
  result : Option (List ℚ)
  submitted : Option String
  emptyRejected : Bool
  deriving Repr, DecidableEq

/-- EmbeddingService.generate_embedding: reject empty or whitespace-only
text before any call, truncate to 8000 characters, then consult the
provider once. -/
def generate_embedding (text : String) (provider : String → Option (List ℚ)) :
    EmbedOutcome :=
  if text = "" ∨ (pyStrip text).length = 0 then
    { result := none, submitted := none, emptyRejected := true }
  else
    let t := if text.length > 8000 then (⟨text.data.take 8000⟩ : String) else text
    { result := provider t, submitted := some t, emptyRejected := false }

/-! ## Similarity search wrapper (pinecone_client.py, search_similar)

The index query is a parameter: ok ms is a normal reply, error is the
exception path.  Both the missing-index guard and the except branch return
an empty list, never a failure marker. -/

def search_similar (indexReady : Bool)
    (queryOutcome : Except Unit (List Candidate)) : List Candidate :=
  if indexReady = false then []
  else
    match queryOutcome with
    | Except.ok ms => ms
    | Except.error _ => []

/-! ## Answer generation control flow (llm_service.py, generate_response)

Only the control flow matters here: re-reject an empty query, then the
chat-completion call, whose outcome (answer text, or None for the swallowed
exception) is a parameter. -/

def generate_response (query : String) (llmOutcome : Option String) :
    Option String :=
  if query = "" ∨ (pyStrip query).length = 0 then none else llmOutcome

/-! ## Orchestrator (rag_manager.py, RAGManager.process_query)

The trace records the returned value together with which external calls
were reached and the filtered context handed to the generator. -/

structure PipelineTrace where
  result : Option String
  embedProviderCalled : Bool
  searchCalled : Bool
  generatorCalled : Bool
  generationContext : Option (List Candidate)
  deriving Repr, DecidableEq

/-- RAGManager.process_query: guard on the initialized pipeline, embed the
query (a falsy embedding, None or the empty vector, aborts), search, apply
the relevance filter, then generate.  A None from generation propagates as
the final None. -/
def process_query (pipelineReady : Bool) (query : String)
    (provider : String → Option (List ℚ))
    (searchOutcome : Except Unit (List Candidate))
    (llmOutcome : Option String) : PipelineTrace :=
  if pipelineReady = false then
    { result := none, embedProviderCalled := false, searchCalled := false,
      generatorCalled := false, generationContext := none }
  else
    let eo := generate_embedding query provider
    match eo.result with
    | none =>
      { result := none, embedProviderCalled := eo.submitted.isSome,
        searchCalled := false, generatorCalled := false, generationContext := none }
    | some emb =>
      if emb.length = 0 then
        { result := none, embedProviderCalled := true, searchCalled := false,
          generatorCalled := false, generationContext := none }
      else
        let similar := search_similar true searchOutcome
        let filtered := filterDocs similar
        { result := generate_response query llmOutcome,
          embedProviderCalled := true, searchCalled := true,
          generatorCalled := true, generationContext := some filtered }

/-- A provider whose one call succeeds with a nonempty vector, used to
exhibit concrete pipeline runs. -/
def okProvider : String → Option (List ℚ) := fun _ => some [1]

/-- A provider whose one call fails, used to exhibit concrete runs. -/
def downProvider : String → Option (List ℚ) := fun _ => none

/-! ## Character-level substring machinery

format_context and the link scanner are specified through substring
structure, so both are embedded over List Char. -/

def chars (s : String) : List Char := s.data

/-- pat is a prefix of l (executable). -/
def beginsWith : List Char → List Char → Bool
  | [], _ => true
  | _ :: _, [] => false
  | p :: ps, c :: cs => p == c && beginsWith ps cs

/-- pat occurs as a contiguous run somewhere in l (executable). -/
def containsSeq (pat : List Char) : List Char → Bool
  | [] => beginsWith pat []
  | c :: cs => beginsWith pat (c :: cs) || containsSeq pat cs

/-- The marker by which a URL is recognized as a substring. -/
def httpPat : List Char := chars "http"

/-! ## Context formatter (llm_service.py, _format_context)

The numeric renderings (the 1-based index and the score with three
decimals) are embedded with an explicit digit writer; the claims only ever
need that their characters are digits, a dot or a minus sign. -/

def natCharsAux : ℕ → ℕ → List Char
  | 0, _ => []
  | fuel + 1, n =>
    if n < 10 then [Nat.digitChar n]
    else natCharsAux fuel (n / 10) ++ [Nat.digitChar (n % 10)]

/-- Decimal digits of a natural number. -/
def natChars (n : ℕ) : List Char := natCharsAux (n + 1) n

/-- Zero-pad a digit run to width three. -/
def pad3 (l : List Char) : List Char := List.replicate (3 - l.length) '0' ++ l

/-- Rendering of the f-string field score:.3f: fixed point with three
decimals (the exact tie-breaking of Python float formatting is abstracted;
no claim depends on it). -/
def formatScore (q : ℚ) : List Char :=
  let m : ℤ := round (q * 1000)
  let sign : List Char := if m < 0 then ['-'] else []
  sign ++ natChars (m.natAbs / 1000) ++ '.' :: pad3 (natChars (m.natAbs % 1000))

/-- The per-candidate block of _format_context, with the tier-gated source
line. -/
def blockChars (level : String) (i : ℕ) (c : Candidate) : List Char :=
  chars "\n Проект " ++ natChars i ++ chars " (релевантность: " ++
    formatScore c.getScore ++ chars "): " ++ chars (titleOf c) ++
    chars "\n Клиент: " ++ chars (clientOf c) ++
    chars "\n Описание: " ++ chars (descriptionOf c) ++
    chars "\n Технологии: " ++ chars (technologiesOf c) ++
    chars "\n " ++
    (if level = "medium" ∨ level = "hard" then
      chars "Источник: " ++ chars (urlOf c) ++ ['\n']
    else [])

/-- The blocks of enumerate(context, 1). -/
def contextBlocks (level : String) : ℕ → List Candidate → List (List Char)
  | _, [] => []
  | i, c :: cs => blockChars level i c :: contextBlocks level (i + 1) cs

/-- Python "\n".join. -/
def joinBlocks : List (List Char) → List Char
  | [] => []
  | [b] => b
  | b :: bs => b ++ '\n' :: joinBlocks bs

/-- LLMService._format_context. -/
def format_context (ctx : List Candidate) (level : String) : List Char :=
  joinBlocks (contextBlocks level 1 ctx)

/-! ## Prompt construction (llm_service.py, _create_prompt) -/

/-- The base prompt shared by every tier. -/
def basePromptChars (query : String) (ctx : List Candidate) (level : String) :
    List Char :=
  chars "\nВопрос клиента: " ++ chars query ++
    chars "\n\nИнформация о проектах EORA:\n" ++ format_context ctx level ++
    chars "\n\nПожалуйста, ответь на вопрос клиента, используя информацию о проектах выше.\n"

/-- The per-tier closing instruction appended to the base prompt; the final
branch is the unvalidated-tier default. -/
def tierInstruction (level : String) : List Char :=
  if level = "simple" then
    chars "\nОтвечай кратко и по существу, без ссылок на источники."
  else if level = "medium" then
    chars "\nОтвечай подробно и обязательно укажи источники информации в конце ответа."
  else if level = "hard" then
    chars "\nОтвечай очень подробно, ОБЯЗАТЕЛЬНО вставляя ссылки на источники прямо в текст ответа. Каждый проект должен содержать ссылку в формате [название проекта](url)."
  else
    chars "\nОтвечай в среднем формате - подробно, но без излишней детализации."

/-- LLMService._create_prompt. -/
def create_prompt (query : String) (ctx : List Candidate) (level : String) :
    List Char :=
  basePromptChars query ctx level ++ tierInstruction level

/-! ## Markdown link extraction (chat.py, extract_sources_from_response)

re.findall over the pattern bracket label bracket paren url paren, with the
label a nonempty run free of closing brackets and the url a nonempty run
free of closing parens.  The scan walks left to right, restarting one
character later on a failed attempt and right after a completed match, the
non-overlapping semantics of findall. -/

def scanLinks : List Char → List (List Char × List Char)
  | [] => []
  | c :: cs =>
    if c = '[' then
      let label := cs.takeWhile (fun x => decide (x ≠ ']'))
      match h1 : cs.dropWhile (fun x => decide (x ≠ ']')) with
      | ']' :: '(' :: cs2 =>
        if label.length = 0 then scanLinks cs
        else
          let url := cs2.takeWhile (fun x => decide (x ≠ ')'))
          match h2 : cs2.dropWhile (fun x => decide (x ≠ ')')) with
          | ')' :: cs3 =>
            if url.length = 0 then scanLinks cs
            else (label, url) :: scanLinks cs3
          | _ => scanLinks cs
      | _ => scanLinks cs
    else scanLinks cs
termination_by l => l.length
decreasing_by
  all_goals simp only [List.length_cons]
  · omega
  · have ha : (cs.dropWhile (fun x => decide (x ≠ ']'))).length ≤ cs.length :=
      List.Sublist.length_le (List.dropWhile_sublist _)
    have hb : (cs2.dropWhile (fun x => decide (x ≠ ')'))).length ≤ cs2.length :=
      List.Sublist.length_le (List.dropWhile_sublist _)
    rw [h1] at ha
    rw [h2] at hb
    simp only [List.length_cons] at ha hb
    omega
  all_goals omega

/-- chat.py extract_sources_from_response: each match is rendered as
label colon space url, and an empty match list collapses to None. -/
def extract_sources_from_response (response : String) : Option (List String) :=
  let sources := (scanLinks response.data).map
    (fun p => (⟨p.1 ++ ':' :: ' ' :: p.2⟩ : String))
  if sources.length = 0 then none else some sources

/-- A well-formed markdown link, rendered. -/
def renderLink (p : List Char × List Char) : List Char :=
  '[' :: p.1 ++ ']' :: '(' :: p.2 ++ [')']

/-- A text interleaving link-free separators with rendered links: the
shape in which claim C7 quantifies over texts with exactly N well-formed
occurrences. -/
def linksText : List (List Char) → List (List Char × List Char) → List Char
  | [], _ => []
  | s :: _, [] => s
  | s :: rest, p :: ps => s ++ renderLink p ++ linksText rest ps

/-! ## Helper lemmas for the relevance filter -/

theorem sortByScoreDesc_perm (docs : List Candidate) :
    (sortByScoreDesc docs).Perm docs :=
  List.perm_insertionSort scoreGE docs

theorem sortByScoreDesc_sorted (docs : List Candidate) :
    ScoreSorted (sortByScoreDesc docs) :=
  List.sorted_insertionSort scoreGE docs

theorem pairwise_take_drop {α : Type} {r : α → α → Prop} {l : List α}
    (h : l.Pairwise r) (n : ℕ) :
    ∀ x ∈ l.take n, ∀ y ∈ l.drop n, r x y := by
  have h2 : (l.take n ++ l.drop n).Pairwise r := by
    rw [List.take_append_drop]; exact h
  exact (List.pairwise_append.mp h2).2.2

theorem filterDocs_of_filter_ne_nil {docs : List Candidate}
    (hne : docs.filter keepDoc ≠ []) :
    filterDocs docs = docs.filter keepDoc := by
  unfold filterDocs
  simp only [List.length_eq_zero]
  rw [if_neg hne]

theorem filterDocs_of_filter_nil {docs : List Candidate}
    (h : docs.filter keepDoc = []) :
    filterDocs docs = (sortByScoreDesc docs).take 2 := by
  unfold filterDocs
  simp only [List.length_eq_zero]
  rw [if_pos h]

theorem mem_of_mem_filterDocs {docs : List Candidate} {c : Candidate}
    (hc : c ∈ filterDocs docs) : c ∈ docs := by
  by_cases hf : docs.filter keepDoc = []
  · rw [filterDocs_of_filter_nil hf] at hc
    have h1 : c ∈ sortByScoreDesc docs := (List.take_sublist 2 _).mem hc
    exact (sortByScoreDesc_perm docs).mem_iff.mp h1
  · rw [filterDocs_of_filter_ne_nil hf] at hc
    exact List.mem_of_mem_filter hc

/-- Claim C1: for every list of candidates returned by search (hence
score-descending), when the subset of candidates with score above 0.35 is
non-empty, the relevance filter returns exactly that subset, sorted by
descending score. -/
theorem filter_keeps_threshold_subset (docs : List Candidate)
    (hsorted : ScoreSorted docs)
    (hne : docs.filter keepDoc ≠ []) :
    filterDocs docs = docs.filter keepDoc ∧
    ScoreSorted (filterDocs docs) ∧
    ∀ c : Candidate, c ∈ filterDocs docs ↔
      c ∈ docs ∧ relevanceThreshold < c.getScore := by
  have heq := filterDocs_of_filter_ne_nil hne
  refine ⟨heq, ?_, ?_⟩
  · rw [heq]
    exact List.Pairwise.sublist (List.filter_sublist docs) hsorted
  · intro c
    rw [heq, List.mem_filter]
    simp [keepDoc]

/-- Witness for claim C1 at a one-candidate list with score 1. -/
theorem filter_keeps_threshold_subset_witness :
    filterDocs [⟨"A", some 1, none⟩] = List.filter keepDoc [⟨"A", some 1, none⟩] ∧
    ScoreSorted (filterDocs [⟨"A", some 1, none⟩]) ∧
    ∀ c : Candidate, c ∈ filterDocs [⟨"A", some 1, none⟩] ↔
      c ∈ [(⟨"A", some 1, none⟩ : Candidate)] ∧ relevanceThreshold < c.getScore :=
  filter_keeps_threshold_subset _ (List.pairwise_singleton _ _)
    (by norm_num [keepDoc, List.filter, Candidate.getScore, relevanceThreshold])

/-- Claim C2: when no candidate clears the threshold, the filter returns
the two highest-scoring candidates of the original list (all of them when
fewer than two exist), sorted by descending score. -/
theorem filter_fallback_top_two (docs : List Candidate)
    (hall : ∀ d ∈ docs, d.getScore ≤ relevanceThreshold) :
    filterDocs docs = (sortByScoreDesc docs).take 2 ∧
    (filterDocs docs).length = min 2 docs.length ∧
    ScoreSorted (filterDocs docs) ∧
    (∀ c ∈ filterDocs docs, c ∈ docs) ∧
    (∀ x ∈ filterDocs docs, ∀ y ∈ (sortByScoreDesc docs).drop 2,
      y.getScore ≤ x.getScore) := by
  have hf : docs.filter keepDoc = [] := by
    rw [List.filter_eq_nil_iff]
    intro a ha
    simp only [keepDoc, decide_eq_true_eq, not_lt]
    exact hall a ha
  have heq := filterDocs_of_filter_nil hf
  refine ⟨heq, ?_, ?_, ?_, ?_⟩
  · rw [heq, List.length_take, (sortByScoreDesc_perm docs).length_eq]
  · rw [heq]
    exact List.Pairwise.sublist (List.take_sublist 2 _) (sortByScoreDesc_sorted docs)
  · intro c hc
    exact mem_of_mem_filterDocs hc
  · intro x hx y hy
    rw [heq] at hx
    exact pairwise_take_drop (sortByScoreDesc_sorted docs) 2 x hx y hy

/-- Witness for claim C2 at a one-candidate list with score 0. -/
theorem filter_fallback_top_two_witness :
    filterDocs [⟨"A", some 0, none⟩] = (sortByScoreDesc [⟨"A", some 0, none⟩]).take 2 ∧
    (filterDocs [⟨"A", some 0, none⟩]).length = min 2 [(⟨"A", some 0, none⟩ : Candidate)].length ∧
    ScoreSorted (filterDocs [⟨"A", some 0, none⟩]) ∧
    (∀ c ∈ filterDocs [⟨"A", some 0, none⟩], c ∈ [(⟨"A", some 0, none⟩ : Candidate)]) ∧
    (∀ x ∈ filterDocs [⟨"A", some 0, none⟩],
      ∀ y ∈ (sortByScoreDesc [⟨"A", some 0, none⟩]).drop 2, y.getScore ≤ x.getScore) :=
  filter_fallback_top_two _
    (by
      intro d hd
      simp only [List.mem_singleton] at hd
      subst hd
      norm_num [Candidate.getScore, relevanceThreshold])

/-- Claim C3: the relevance filter never empties a non-empty candidate
list, so the generator always receives grounding material when search
returned anything. -/
theorem filter_nonempty_of_nonempty (docs : List Candidate)
    (h : docs ≠ []) : filterDocs docs ≠ [] := by
  by_cases hf : docs.filter keepDoc = []
  · rw [filterDocs_of_filter_nil hf]
    have hlen : (sortByScoreDesc docs).length = docs.length :=
      (sortByScoreDesc_perm docs).length_eq
    have hd : docs.length ≠ 0 := by simpa [List.length_eq_zero] using h
    intro hnil
    have hl := congrArg List.length hnil
    rw [List.length_take, hlen] at hl
    simp only [List.length_nil] at hl
    omega
  · rw [filterDocs_of_filter_ne_nil hf]
    exact hf

/-- Witness for claim C3 at a one-candidate list. -/
theorem filter_nonempty_of_nonempty_witness :
    filterDocs [⟨"A", some 0, none⟩] ≠ [] :=
  filter_nonempty_of_nonempty _ (by simp)

/-- Claim C9: the relevance filter only selects: every candidate of its
output is an element of the input list, with id, score and metadata
unchanged. -/
theorem filter_output_from_input (docs : List Candidate) (c : Candidate)
    (hc : c ∈ filterDocs docs) : c ∈ docs :=
  mem_of_mem_filterDocs hc

/-- Witness for claim C9 at a concrete two-candidate list. -/
theorem filter_output_from_input_witness :
    (⟨"B", some 0, none⟩ : Candidate) ∈
      [(⟨"A", some 0, none⟩ : Candidate), ⟨"B", some 0, none⟩] :=
  filter_output_from_input [⟨"A", some 0, none⟩, ⟨"B", some 0, none⟩]
    ⟨"B", some 0, none⟩
    (by
      have hf : List.filter keepDoc
          [(⟨"A", some 0, none⟩ : Candidate), ⟨"B", some 0, none⟩] = [] := by
        norm_num [List.filter, keepDoc, Candidate.getScore, relevanceThreshold]
      rw [filterDocs_of_filter_nil hf]
      decide)

/-! ## Emptiness rejection and truncation lemmas -/

theorem pyStrip_of_all_space {s : String}
    (h : s.data.all isPySpace = true) : (pyStrip s).length = 0 := by
  have h1 : s.data.dropWhile isPySpace = [] :=
    List.dropWhile_eq_nil_iff.mpr (by simpa [List.all_eq_true] using h)
  unfold pyStrip
  rw [h1]
  rfl

/-- Claim C5: an empty or whitespace-only query fails before any network
call: no embedding-provider call, no search, no generation, and the
empty-input rejection branch of the embedder is the one taken. -/
theorem process_rejects_blank_query (ready : Bool) (query : String)
    (provider : String → Option (List ℚ))
    (searchOutcome : Except Unit (List Candidate)) (llmOutcome : Option String)
    (h : query.data.all isPySpace = true) :
    process_query ready query provider searchOutcome llmOutcome =
      { result := none, embedProviderCalled := false, searchCalled := false,
        generatorCalled := false, generationContext := none } ∧
    (generate_embedding query provider).emptyRejected = true := by
  have hstrip : (pyStrip query).length = 0 := pyStrip_of_all_space h
  have hemb : generate_embedding query provider =
      { result := none, submitted := none, emptyRejected := true } := by
    unfold generate_embedding
    rw [if_pos (Or.inr hstrip)]
  refine ⟨?_, by rw [hemb]⟩
  unfold process_query
  cases ready with
  | false => rfl
  | true => simp [hemb]

/-- Witness for claim C5 at the whitespace query. -/
theorem process_rejects_blank_query_witness :
    process_query true "  " okProvider (Except.ok []) (some "x") =
      { result := none, embedProviderCalled := false, searchCalled := false,
        generatorCalled := false, generationContext := none } ∧
    (generate_embedding "  " okProvider).emptyRejected = true :=
  process_rejects_blank_query true "  " okProvider (Except.ok []) (some "x")
    (by decide)

/-- Claim C8: on input that passes the emptiness check, the embedder
submits to the provider exactly the first 8000 characters when the text is
longer than 8000 characters, and the unmodified text otherwise. -/
theorem embedder_truncates_at_8000 (text : String)
    (provider : String → Option (List ℚ))
    (h : ¬(text = "" ∨ (pyStrip text).length = 0)) :
    ∃ t : String, (generate_embedding text provider).submitted = some t ∧
      t.data = text.data.take 8000 ∧
      (text.length ≤ 8000 → t = text) ∧
      (8000 < text.length → t.length = 8000) := by
  unfold generate_embedding
  rw [if_neg h]
  by_cases hl : text.length > 8000
  · rw [if_pos hl]
    refine ⟨⟨text.data.take 8000⟩, rfl, rfl, ?_, ?_⟩
    · intro hle
      omega
    · intro _
      show (text.data.take 8000).length = 8000
      rw [List.length_take]
      have hd : 8000 < text.data.length := hl
      omega
  · rw [if_neg hl]
    refine ⟨text, rfl, ?_, fun _ => rfl, fun hgt => absurd hgt hl⟩
    have hd : text.data.length ≤ 8000 := not_lt.mp hl
    exact (List.take_of_length_le hd).symm

/-- Witness for claim C8 at a short text. -/
theorem embedder_truncates_at_8000_witness :
    ∃ t : String, (generate_embedding "hi" downProvider).submitted = some t ∧
      t.data = "hi".data.take 8000 ∧
      ("hi".length ≤ 8000 → t = "hi") ∧
      (8000 < "hi".length → t.length = 8000) :=
  embedder_truncates_at_8000 "hi" downProvider (by decide)

/-! ## Stage-failure behavior of the orchestrator -/

/-- Claim C4 counterexample: with a failing similarity search and a
generator that answers, the orchestrator returns that answer, built on an
empty retrieved context, instead of aborting. -/
theorem process_answers_after_search_failure :
    (process_query true "query" okProvider (Except.error ()) (some "answer")).result
      = some "answer" ∧
    (process_query true "query" okProvider (Except.error ()) (some "answer")).generationContext
      = some [] := by
  constructor <;> rfl

/-- Claim C4 (amended): a failure at the embedding or generation stage
aborts the pipeline with a no-answer outcome, but a failure at the
similarity-search stage is swallowed into an empty candidate list and the
pipeline continues, so an answer generated without retrieved context can be
returned. -/
theorem process_stage_failure_policy (ready : Bool) (query : String)
    (provider : String → Option (List ℚ))
    (searchOutcome : Except Unit (List Candidate)) (llmOutcome : Option String) :
    ((generate_embedding query provider).result = none →
      (process_query ready query provider searchOutcome llmOutcome).result = none ∧
      (process_query ready query provider searchOutcome llmOutcome).searchCalled = false ∧
      (process_query ready query provider searchOutcome llmOutcome).generatorCalled = false) ∧
    (llmOutcome = none →
      (process_query ready query provider searchOutcome llmOutcome).result = none) ∧
    (∀ emb : List ℚ, ready = true →
      (generate_embedding query provider).result = some emb → emb.length ≠ 0 →
      searchOutcome = Except.error () →
      (process_query ready query provider searchOutcome llmOutcome).generationContext
        = some [] ∧
      (process_query ready query provider searchOutcome llmOutcome).result
        = generate_response query llmOutcome) := by
  refine ⟨?_, ?_, ?_⟩
  · intro h
    cases ready with
    | false => exact ⟨rfl, rfl, rfl⟩
    | true => simp [process_query, h]
  · intro h
    subst h
    cases ready with
    | false => rfl
    | true =>
      rcases hres : (generate_embedding query provider).result with _ | emb
      · simp [process_query, hres]
      · by_cases hlen : emb.length = 0
        · simp [process_query, hres, hlen]
        · simp [process_query, hres, hlen, generate_response]
  · intro emb hready hres hlen hso
    subst hready
    subst hso
    constructor
    · simp [process_query, hres, hlen, search_similar, filterDocs,
        sortByScoreDesc, List.insertionSort]
    · simp [process_query, hres, hlen]

/-- Witness for the amended claim C4: a failed embedding call aborts the
whole request. -/
theorem process_stage_failure_policy_witness :
    (process_query true "q" downProvider (Except.ok []) (some "a")).result = none ∧
    (process_query true "q" downProvider (Except.ok []) (some "a")).searchCalled = false ∧
    (process_query true "q" downProvider (Except.ok []) (some "a")).generatorCalled = false :=
  (process_stage_failure_policy true "q" downProvider (Except.ok []) (some "a")).1 rfl

/-! ## Substring lemmas for the context formatter -/

theorem beginsWith_mem {pat l : List Char} (h : beginsWith pat l = true) :
    ∀ x ∈ pat, x ∈ l := by
  induction pat generalizing l with
  | nil => simp
  | cons p ps ih =>
    cases l with
    | nil => simp [beginsWith] at h
    | cons c cs =>
      simp only [beginsWith, Bool.and_eq_true, beq_iff_eq] at h
      rcases h with ⟨hpc, hrest⟩
      intro x hx
      rcases List.mem_cons.mp hx with hx1 | hx2
      · subst hx1
        exact hpc ▸ List.mem_cons_self c cs
      · exact List.mem_cons_of_mem _ (ih hrest x hx2)

theorem containsSeq_mem {pat l : List Char} (h : containsSeq pat l = true) :
    ∀ x ∈ pat, x ∈ l := by
  induction l with
  | nil => exact beginsWith_mem h
  | cons c cs ih =>
    simp only [containsSeq, Bool.or_eq_true] at h
    rcases h with h | h
    · exact beginsWith_mem h
    · intro x hx
      exact List.mem_cons_of_mem _ (ih h x hx)

theorem containsSeq_nil_right {pat : List Char} (hp : pat ≠ []) :
    containsSeq pat [] = false := by
  cases pat with
  | nil => exact absurd rfl hp
  | cons p ps => rfl

theorem no_http_of_chars_safe {l : List Char}
    (h : ∀ c ∈ l, c ∉ httpPat) : containsSeq httpPat l = false := by
  cases hc : containsSeq httpPat l with
  | false => rfl
  | true =>
    exact absurd (by decide : 'h' ∈ httpPat)
      (h 'h' (containsSeq_mem hc 'h' (by decide)))

theorem beginsWith_append_cons {pat : List Char} {x : Char} (hx : x ∉ pat)
    (l r : List Char) : beginsWith pat (l ++ x :: r) = beginsWith pat l := by
  induction pat generalizing l with
  | nil => rfl
  | cons p ps ih =>
    cases l with
    | nil =>
      have hpx : (p == x) = false :=
        beq_eq_false_iff_ne.mpr fun he => hx (he ▸ List.mem_cons_self p ps)
      simp [beginsWith, hpx]
    | cons c cs =>
      show (p == c && beginsWith ps (cs ++ x :: r)) = (p == c && beginsWith ps cs)
      rw [ih (fun hmem => hx (List.mem_cons_of_mem _ hmem)) cs]

theorem containsSeq_append_cons {pat : List Char} (hp : pat ≠ []) {x : Char}
    (hx : x ∉ pat) (l r : List Char) :
    containsSeq pat (l ++ x :: r) = (containsSeq pat l || containsSeq pat r) := by
  induction l with
  | nil =>
    cases pat with
    | nil => exact absurd rfl hp
    | cons p ps =>
      have hpx : (p == x) = false :=
        beq_eq_false_iff_ne.mpr fun he => hx (he ▸ List.mem_cons_self p ps)
      simp [containsSeq, beginsWith, hpx]
  | cons c cs ih =>
    show (beginsWith pat (c :: (cs ++ x :: r)) || containsSeq pat (cs ++ x :: r)) =
      ((beginsWith pat (c :: cs) || containsSeq pat cs) || containsSeq pat r)
    have hb := beginsWith_append_cons hx (c :: cs) r
    have hb2 : beginsWith pat (c :: (cs ++ x :: r)) = beginsWith pat (c :: cs) := hb
    rw [hb2, ih, ← Bool.or_assoc]

theorem containsSeq_append_safe {pat g : List Char} (hp : pat ≠ [])
    (hg : ∀ x ∈ g, x ∉ pat) (hgne : g ≠ []) (a b : List Char) :
    containsSeq pat (a ++ (g ++ b)) = (containsSeq pat a || containsSeq pat b) := by
  induction g generalizing a with
  | nil => exact absurd rfl hgne
  | cons x g2 ih =>
    have hx : x ∉ pat := hg x (List.mem_cons_self _ _)
    rw [show (x :: g2) ++ b = x :: (g2 ++ b) from rfl, containsSeq_append_cons hp hx]
    cases g2 with
    | nil => simp
    | cons y g3 =>
      have h2 := ih (fun z hz => hg z (List.mem_cons_of_mem _ hz))
        (List.cons_ne_nil _ _) []
      simp only [List.nil_append] at h2
      rw [h2, containsSeq_nil_right hp]
      simp

theorem containsSeq_glue_left {pat g : List Char} (hp : pat ≠ [])
    (hg : ∀ x ∈ g, x ∉ pat) (hgne : g ≠ []) (b : List Char) :
    containsSeq pat (g ++ b) = containsSeq pat b := by
  have h := containsSeq_append_safe hp hg hgne [] b
  simp only [List.nil_append] at h
  rw [h, containsSeq_nil_right hp]
  simp

theorem containsSeq_field_glue {pat g : List Char} (hp : pat ≠ [])
    (hg : ∀ x ∈ g, x ∉ pat) (hgne : g ≠ []) (f b : List Char)
    (hf : containsSeq pat f = false) :
    containsSeq pat (f ++ (g ++ b)) = containsSeq pat b := by
  rw [containsSeq_append_safe hp hg hgne f b, hf]
  simp

theorem containsSeq_field_glue_end {pat g : List Char} (hp : pat ≠ [])
    (hg : ∀ x ∈ g, x ∉ pat) (hgne : g ≠ []) (f : List Char)
    (hf : containsSeq pat f = false) :
    containsSeq pat (f ++ g) = false := by
  have h := containsSeq_append_safe hp hg hgne f []
  rw [List.append_nil] at h
  rw [h, hf, containsSeq_nil_right hp]
  rfl

theorem beginsWith_append {pat l : List Char} (r : List Char)
    (h : beginsWith pat l = true) : beginsWith pat (l ++ r) = true := by
  induction pat generalizing l with
  | nil => rfl
  | cons p ps ih =>
    cases l with
    | nil => simp [beginsWith] at h
    | cons c cs =>
      simp only [beginsWith, Bool.and_eq_true] at h ⊢
      exact ⟨h.1, ih h.2⟩

theorem beginsWith_self (l r : List Char) : beginsWith l (l ++ r) = true := by
  induction l with
  | nil => rfl
  | cons c cs ih => simp [beginsWith, ih]

theorem containsSeq_nil_pat (b : List Char) : containsSeq [] b = true := by
  cases b <;> rfl

theorem containsSeq_append_right {pat : List Char} (a b : List Char)
    (h : containsSeq pat b = true) : containsSeq pat (a ++ b) = true := by
  induction a with
  | nil => simpa using h
  | cons c cs ih => simp [containsSeq, ih]

theorem containsSeq_append_left {pat : List Char} (a b : List Char)
    (h : containsSeq pat a = true) : containsSeq pat (a ++ b) = true := by
  induction a with
  | nil =>
    cases pat with
    | nil => exact containsSeq_nil_pat b
    | cons p ps => simp [containsSeq, beginsWith] at h
  | cons c cs ih =>
    simp only [containsSeq, Bool.or_eq_true] at h ⊢
    rcases h with h | h
    · left
      have hb : beginsWith pat ((c :: cs) ++ b) = true := beginsWith_append b h
      simpa using hb
    · right
      exact ih h

theorem containsSeq_cons_of {pat l : List Char} (c : Char)
    (h : containsSeq pat l = true) : containsSeq pat (c :: l) = true := by
  simp [containsSeq, h]

theorem containsSeq_self (pat : List Char) : containsSeq pat pat = true := by
  have h := beginsWith_self pat []
  rw [List.append_nil] at h
  cases pat with
  | nil => rfl
  | cons p ps => simp [containsSeq, h]

theorem containsSeq_of_part {pat m l : List Char}
    (hm : containsSeq pat m = true) (h : ∃ a b, l = a ++ (m ++ b)) :
    containsSeq pat l = true := by
  rcases h with ⟨a, b, rfl⟩
  exact containsSeq_append_right a _ (containsSeq_append_left m b hm)

/-! ## Characters of the numeric renderings -/

theorem natCharsAux_mem {f n : ℕ} {c : Char} (hc : c ∈ natCharsAux f n) :
    ∃ d, d < 10 ∧ c = Nat.digitChar d := by
  induction f generalizing n with
  | zero => simp [natCharsAux] at hc
  | succ f ih =>
    unfold natCharsAux at hc
    by_cases h : n < 10
    · rw [if_pos h] at hc
      simp only [List.mem_singleton] at hc
      exact ⟨n, h, hc⟩
    · rw [if_neg h] at hc
      rcases List.mem_append.mp hc with h1 | h2
      · exact ih h1
      · simp only [List.mem_singleton] at h2
        exact ⟨n % 10, Nat.mod_lt _ (by norm_num), h2⟩

theorem natChars_safe {n : ℕ} {c : Char} (hc : c ∈ natChars n) : c ∉ httpPat := by
  rcases natCharsAux_mem hc with ⟨d, hd, rfl⟩
  have key : ∀ d, d < 10 → Nat.digitChar d ∉ httpPat := by decide
  exact key d hd

theorem natChars_no_http (n : ℕ) : containsSeq httpPat (natChars n) = false :=
  no_http_of_chars_safe fun _ hc => natChars_safe hc

theorem pad3_mem {l : List Char} {c : Char} (hc : c ∈ pad3 l) :
    c = '0' ∨ c ∈ l := by
  rcases List.mem_append.mp hc with h1 | h2
  · exact Or.inl (List.eq_of_mem_replicate h1)
  · exact Or.inr h2

theorem formatScore_safe {q : ℚ} {c : Char} (hc : c ∈ formatScore q) :
    c ∉ httpPat := by
  unfold formatScore at hc
  rcases List.mem_append.mp hc with h1 | h2
  · rcases List.mem_append.mp h1 with h3 | h4
    · by_cases hm : round (q * 1000) < 0
      · rw [if_pos hm] at h3
        simp only [List.mem_singleton] at h3
        subst h3
        decide
      · rw [if_neg hm] at h3
        simp at h3
    · exact natChars_safe h4
  · rcases List.mem_cons.mp h2 with h5 | h6
    · subst h5
      decide
    · rcases pad3_mem h6 with h7 | h8
      · subst h7
        decide
      · exact natChars_safe h8

theorem formatScore_no_http (q : ℚ) : containsSeq httpPat (formatScore q) = false :=
  no_http_of_chars_safe fun _ hc => formatScore_safe hc

/-! ## Tier-gated URL rendering, block level -/

theorem blockChars_no_http {level : String}
    (hlev : ¬(level = "medium" ∨ level = "hard")) (i : ℕ) (c : Candidate)
    (ht : containsSeq httpPat (chars (titleOf c)) = false)
    (hcl : containsSeq httpPat (chars (clientOf c)) = false)
    (hd : containsSeq httpPat (chars (descriptionOf c)) = false)
    (hte : containsSeq httpPat (chars (technologiesOf c)) = false) :
    containsSeq httpPat (blockChars level i c) = false := by
  have hp : httpPat ≠ [] := by decide
  unfold blockChars
  rw [if_neg hlev, List.append_nil]
  simp only [List.append_assoc]
  rw [containsSeq_glue_left hp (by decide) (by decide),
    containsSeq_field_glue hp (g := chars " (релевантность: ") (by decide) (by decide)
      _ _ (natChars_no_http i),
    containsSeq_field_glue hp (g := chars "): ") (by decide) (by decide)
      _ _ (formatScore_no_http c.getScore),
    containsSeq_field_glue hp (g := chars "\n Клиент: ") (by decide) (by decide)
      _ _ ht,
    containsSeq_field_glue hp (g := chars "\n Описание: ") (by decide) (by decide)
      _ _ hcl,
    containsSeq_field_glue hp (g := chars "\n Технологии: ") (by decide) (by decide)
      _ _ hd,
    containsSeq_field_glue_end hp (g := chars "\n ") (by decide) (by decide)
      _ hte]

theorem blockChars_url_present {level : String}
    (hlev : level = "medium" ∨ level = "hard") (i : ℕ) (c : Candidate) :
    containsSeq (chars (urlOf c)) (blockChars level i c) = true ∧
    (containsSeq httpPat (chars (urlOf c)) = true →
      containsSeq httpPat (blockChars level i c) = true) := by
  have hshape : ∃ a b, blockChars level i c = a ++ (chars (urlOf c) ++ b) := by
    refine ⟨chars "\n Проект " ++ natChars i ++ chars " (релевантность: " ++
      formatScore c.getScore ++ chars "): " ++ chars (titleOf c) ++
      chars "\n Клиент: " ++ chars (clientOf c) ++
      chars "\n Описание: " ++ chars (descriptionOf c) ++
      chars "\n Технологии: " ++ chars (technologiesOf c) ++
      chars "\n " ++ chars "Источник: ", ['\n'], ?_⟩
    unfold blockChars
    rw [if_pos hlev]
    simp [List.append_assoc]
  constructor
  · exact containsSeq_of_part (containsSeq_self _) hshape
  · intro hu
    exact containsSeq_of_part hu hshape

/-! ## Tier-gated URL rendering, context level -/

theorem contextBlocks_no_http {level : String}
    (hlev : ¬(level = "medium" ∨ level = "hard")) (ctx : List Candidate)
    (hfields : ∀ c ∈ ctx,
      containsSeq httpPat (chars (titleOf c)) = false ∧
      containsSeq httpPat (chars (clientOf c)) = false ∧
      containsSeq httpPat (chars (descriptionOf c)) = false ∧
      containsSeq httpPat (chars (technologiesOf c)) = false) :
    ∀ i : ℕ, containsSeq httpPat (joinBlocks (contextBlocks level i ctx)) = false := by
  have hp : httpPat ≠ [] := by decide
  induction ctx with
  | nil => intro i; rfl
  | cons c cs ih =>
    intro i
    have hc := hfields c (List.mem_cons_self _ _)
    have hblock := blockChars_no_http hlev i c hc.1 hc.2.1 hc.2.2.1 hc.2.2.2
    cases cs with
    | nil =>
      show containsSeq httpPat (blockChars level i c) = false
      exact hblock
    | cons c2 cs2 =>
      have ih2 := ih (fun d hd => hfields d (List.mem_cons_of_mem _ hd)) (i + 1)
      show containsSeq httpPat
        (blockChars level i c ++ '\n' :: joinBlocks (contextBlocks level (i + 1) (c2 :: cs2)))
          = false
      rw [containsSeq_append_cons hp (by decide), hblock, ih2]
      rfl

theorem contextBlocks_http_present {level : String}
    (hlev : level = "medium" ∨ level = "hard") (ctx : List Candidate)
    (hurls : ∀ c ∈ ctx, containsSeq httpPat (chars (urlOf c)) = true)
    (hne : ctx ≠ []) :
    ∀ i : ℕ, containsSeq httpPat (joinBlocks (contextBlocks level i ctx)) = true := by
  induction ctx with
  | nil => exact absurd rfl hne
  | cons c cs ih =>
    intro i
    have hu := hurls c (List.mem_cons_self _ _)
    have hblock := (blockChars_url_present hlev i c).2 hu
    cases cs with
    | nil =>
      show containsSeq httpPat (blockChars level i c) = true
      exact hblock
    | cons c2 cs2 =>
      show containsSeq httpPat
        (blockChars level i c ++ '\n' :: joinBlocks (contextBlocks level (i + 1) (c2 :: cs2)))
          = true
      exact containsSeq_append_left _ _ hblock

/-- Claim C6: at tier simple the rendered context contains no URL marker
(given that no metadata text field smuggles one in), while at tiers medium
and hard every candidate block contains that candidate's URL, hence a URL
marker, and so does the whole rendered context once any candidate
survived. -/
theorem context_url_tier_gating (ctx : List Candidate) (level : String)
    (hfields : ∀ c ∈ ctx,
      containsSeq httpPat (chars (titleOf c)) = false ∧
      containsSeq httpPat (chars (clientOf c)) = false ∧
      containsSeq httpPat (chars (descriptionOf c)) = false ∧
      containsSeq httpPat (chars (technologiesOf c)) = false)
    (hurls : ∀ c ∈ ctx, containsSeq httpPat (chars (urlOf c)) = true) :
    containsSeq httpPat (format_context ctx "simple") = false ∧
    ((level = "medium" ∨ level = "hard") →
      (∀ i : ℕ, ∀ c ∈ ctx,
        containsSeq (chars (urlOf c)) (blockChars level i c) = true ∧
        containsSeq httpPat (blockChars level i c) = true) ∧
      (ctx ≠ [] → containsSeq httpPat (format_context ctx level) = true)) := by
  refine ⟨?_, fun hlev => ⟨?_, ?_⟩⟩
  · exact contextBlocks_no_http (by decide) ctx hfields 1
  · intro i c hc
    exact ⟨(blockChars_url_present hlev i c).1,
      (blockChars_url_present hlev i c).2 (hurls c hc)⟩
  · intro hne
    exact contextBlocks_http_present hlev ctx hurls hne 1

/-- Witness for claim C6 at a one-candidate context with plain fields and
an http URL. -/
theorem context_url_tier_gating_witness :
    containsSeq httpPat (format_context
      [⟨"A", some 1, some ⟨some "T", some "D", some "C", some "tech", some "http://e"⟩⟩]
      "simple") = false ∧
    (("medium" = "medium" ∨ "medium" = "hard") →
      (∀ i : ℕ, ∀ c ∈
          [(⟨"A", some 1, some ⟨some "T", some "D", some "C", some "tech", some "http://e"⟩⟩ : Candidate)],
        containsSeq (chars (urlOf c)) (blockChars "medium" i c) = true ∧
        containsSeq httpPat (blockChars "medium" i c) = true) ∧
      ([(⟨"A", some 1, some ⟨some "T", some "D", some "C", some "tech", some "http://e"⟩⟩ : Candidate)] ≠ [] →
        containsSeq httpPat (format_context
          [⟨"A", some 1, some ⟨some "T", some "D", some "C", some "tech", some "http://e"⟩⟩]
          "medium") = true)) :=
  context_url_tier_gating
    [⟨"A", some 1, some ⟨some "T", some "D", some "C", some "tech", some "http://e"⟩⟩]
    "medium"
    (by
      intro c hc
      simp only [List.mem_singleton] at hc
      subst hc
      refine ⟨?_, ?_, ?_, ?_⟩ <;> decide)
    (by
      intro c hc
      simp only [List.mem_singleton] at hc
      subst hc
      decide)

/-! ## Unvalidated tier fallback (claim C10) -/

theorem blockChars_unknown_level {level : String}
    (h : level ≠ "simple" ∧ level ≠ "medium" ∧ level ≠ "hard")
    (i : ℕ) (c : Candidate) :
    blockChars level i c = blockChars "simple" i c := by
  unfold blockChars
  rw [if_neg (by simp [h.2.1, h.2.2]), if_neg (by decide)]

theorem contextBlocks_unknown_level {level : String}
    (h : level ≠ "simple" ∧ level ≠ "medium" ∧ level ≠ "hard")
    (ctx : List Candidate) :
    ∀ i : ℕ, contextBlocks level i ctx = contextBlocks "simple" i ctx := by
  induction ctx with
  | nil => intro i; rfl
  | cons c cs ih =>
    intro i
    show blockChars level i c :: contextBlocks level (i + 1) cs =
      blockChars "simple" i c :: contextBlocks "simple" (i + 1) cs
    rw [blockChars_unknown_level h i c, ih (i + 1)]

/-- Claim C10: a complexity level outside simple, medium and hard is not
rejected: the context renders exactly as at tier simple (no source line)
and the prompt ends with the default medium-style closing instruction. -/
theorem unknown_tier_degrades (query : String) (ctx : List Candidate)
    (level : String)
    (h : level ≠ "simple" ∧ level ≠ "medium" ∧ level ≠ "hard") :
    format_context ctx level = format_context ctx "simple" ∧
    create_prompt query ctx level = basePromptChars query ctx level ++
      chars "\nОтвечай в среднем формате - подробно, но без излишней детализации." := by
  constructor
  · unfold format_context
    rw [contextBlocks_unknown_level h ctx 1]
  · unfold create_prompt tierInstruction
    rw [if_neg h.1, if_neg h.2.1, if_neg h.2.2]

/-- Witness for claim C10 at the unvalidated level expert. -/
theorem unknown_tier_degrades_witness :
    format_context [] "expert" = format_context [] "simple" ∧
    create_prompt "q" [] "expert" = basePromptChars "q" [] "expert" ++
      chars "\nОтвечай в среднем формате - подробно, но без излишней детализации." :=
  unknown_tier_degrades "q" [] "expert" (by refine ⟨?_, ?_, ?_⟩ <;> decide)

/-! ## Link extraction lemmas (claim C7) -/

theorem takeWhile_stop {p : Char → Bool} {l : List Char}
    (hl : ∀ c ∈ l, p c = true) {x : Char} (hx : p x = false) (r : List Char) :
    (l ++ x :: r).takeWhile p = l ∧ (l ++ x :: r).dropWhile p = x :: r := by
  induction l with
  | nil => simp [List.takeWhile_cons, List.dropWhile_cons, hx]
  | cons a as ih =>
    have ha : p a = true := hl a (List.mem_cons_self _ _)
    have ih2 := ih fun c hc => hl c (List.mem_cons_of_mem _ hc)
    simp only [List.cons_append, List.takeWhile_cons, List.dropWhile_cons, ha,
      if_true, ih2.1, ih2.2]
    simp

theorem scanLinks_nil : scanLinks [] = [] := by
  rw [scanLinks]

theorem scanLinks_cons_skip {c : Char} (hc : c ≠ '[') (cs : List Char) :
    scanLinks (c :: cs) = scanLinks cs := by
  conv_lhs => rw [scanLinks]
  rw [if_neg hc]

theorem scanLinks_prepend {s : List Char} (hs : '[' ∉ s) (t : List Char) :
    scanLinks (s ++ t) = scanLinks t := by
  induction s with
  | nil => rfl
  | cons a as ih =>
    have ha : a ≠ '[' := fun he => hs (he ▸ List.mem_cons_self _ _)
    rw [List.cons_append, scanLinks_cons_skip ha,
      ih fun hm => hs (List.mem_cons_of_mem _ hm)]

theorem scanLinks_link {label url : List Char} (hl : label ≠ [])
    (hlc : ∀ c ∈ label, c ≠ ']') (hu : url ≠ []) (huc : ∀ c ∈ url, c ≠ ')')
    (t : List Char) :
    scanLinks (renderLink (label, url) ++ t) = (label, url) :: scanLinks t := by
  have e1 : renderLink (label, url) ++ t =
      '[' :: (label ++ ']' :: '(' :: (url ++ ')' :: t)) := by
    simp [renderLink]
  rw [e1]
  have hsplit1 := takeWhile_stop (p := fun x => decide (x ≠ ']'))
    (l := label) (fun c hc => by simpa using hlc c hc) (x := ']') (by simp)
    ('(' :: (url ++ ')' :: t))
  have hsplit2 := takeWhile_stop (p := fun x => decide (x ≠ ')'))
    (l := url) (fun c hc => by simpa using huc c hc) (x := ')') (by simp) t
  conv_lhs => rw [scanLinks]
  rw [if_pos rfl]
  split
  case h_1 cs2 heq =>
    rw [hsplit1.2] at heq
    have hcs2 : cs2 = url ++ ')' :: t := by
      injection heq with g1 g2
      injection g2 with g3 g4
      exact g4.symm
    subst hcs2
    simp only [hsplit1.1, hsplit2.1]
    rw [if_neg (by simpa [List.length_eq_zero] using hl)]
    split
    case h_1 cs3 heq2 =>
      rw [hsplit2.2] at heq2
      have hcs3 : cs3 = t := by
        injection heq2 with g5 g6
        exact g6.symm
      subst hcs3
      rw [if_neg (by simpa [List.length_eq_zero] using hu)]
    case h_2 hmiss =>
      exact absurd hsplit2.2 fun hc => hmiss t hc
  case h_2 hmiss =>
    exact absurd hsplit1.2 fun hc => hmiss (url ++ ')' :: t) hc

theorem scanLinks_linksText (links : List (List Char × List Char)) :
    ∀ seps : List (List Char), seps.length = links.length + 1 →
    (∀ s ∈ seps, '[' ∉ s) →
    (∀ p ∈ links, p.1 ≠ [] ∧ (∀ c ∈ p.1, c ≠ ']') ∧
      p.2 ≠ [] ∧ (∀ c ∈ p.2, c ≠ ')')) →
    scanLinks (linksText seps links) = links := by
  induction links with
  | nil =>
    intro seps hlen hseps _
    cases seps with
    | nil => simp at hlen
    | cons s rest =>
      show scanLinks s = []
      have h := scanLinks_prepend (hseps s (List.mem_cons_self _ _)) []
      rw [List.append_nil] at h
      rw [h, scanLinks_nil]
  | cons p ps ih =>
    intro seps hlen hseps hlinks
    cases seps with
    | nil => simp at hlen
    | cons s rest =>
      obtain ⟨l, u⟩ := p
      have hp := hlinks (l, u) (List.mem_cons_self _ _)
      show scanLinks (s ++ renderLink (l, u) ++ linksText rest ps) = (l, u) :: ps
      rw [List.append_assoc,
        scanLinks_prepend (hseps s (List.mem_cons_self _ _)),
        scanLinks_link hp.1 hp.2.1 hp.2.2.1 hp.2.2.2]
      congr 1
      exact ih rest (by simpa using hlen)
        (fun s2 hs2 => hseps s2 (List.mem_cons_of_mem _ hs2))
        (fun q hq => hlinks q (List.mem_cons_of_mem _ hq))

/-- Claim C7: on a text interleaving link-free separators with N
well-formed markdown links, the scanner finds exactly those N pairs in
left-to-right order, the source extractor renders each pair once in that
order (collapsing to None when N is zero), and any text the scanner finds
nothing in extracts to None. -/
theorem extract_links_exact (seps : List (List Char))
    (links : List (List Char × List Char))
    (hlen : seps.length = links.length + 1)
    (hseps : ∀ s ∈ seps, '[' ∉ s)
    (hlinks : ∀ p ∈ links, p.1 ≠ [] ∧ (∀ c ∈ p.1, c ≠ ']') ∧
      p.2 ≠ [] ∧ (∀ c ∈ p.2, c ≠ ')')) :
    scanLinks (linksText seps links) = links ∧
    extract_sources_from_response ⟨linksText seps links⟩ =
      (if links.length = 0 then none
       else some (links.map fun p => (⟨p.1 ++ ':' :: ' ' :: p.2⟩ : String))) ∧
    ∀ t : String, scanLinks t.data = [] →
      extract_sources_from_response t = none := by
  have hscan := scanLinks_linksText links seps hlen hseps hlinks
  refine ⟨hscan, ?_, ?_⟩
  · unfold extract_sources_from_response
    rw [show (⟨linksText seps links⟩ : String).data = linksText seps links from rfl,
      hscan]
    cases links with
    | nil => simp
    | cons p ps => simp
  · intro t ht
    unfold extract_sources_from_response
    rw [ht]
    simp

/-- Witness for claim C7 on a text with two links and on a blank text. -/
theorem extract_links_exact_witness :
    scanLinks (linksText [chars "see ", chars " and ", chars "."]
      [(chars "A", chars "u1"), (chars "B", chars "u2")]) =
      [(chars "A", chars "u1"), (chars "B", chars "u2")] ∧
    extract_sources_from_response (⟨linksText [chars "see ", chars " and ", chars "."]
      [(chars "A", chars "u1"), (chars "B", chars "u2")]⟩ : String) =
      (if ([(chars "A", chars "u1"), (chars "B", chars "u2")] :
          List (List Char × List Char)).length = 0 then none
       else some (([(chars "A", chars "u1"), (chars "B", chars "u2")] :
          List (List Char × List Char)).map
            fun p => (⟨p.1 ++ ':' :: ' ' :: p.2⟩ : String))) ∧
    ∀ t : String, scanLinks t.data = [] →
      extract_sources_from_response t = none :=
  extract_links_exact [chars "see ", chars " and ", chars "."]
    [(chars "A", chars "u1"), (chars "B", chars "u2")]
    rfl (by decide) (by decide)
